import Mathlib

/-!
Verification development for the source formatter in
compiler-core/src/format.rs.

The definitions below are a shallow embedding of the Rust source: byte
offsets become Nat, slices become lists, the mutable cursor of the
Formatter becomes an explicit Ctx value that functions thread through.
The document-combinator engine (crate::pretty) and the AST helper
methods (crate::ast) are external collaborators that are not part of
the given source; where one of them is needed it is modelled from the
specification and marked as such in its doc comment.
-/

namespace Format

/-- A source byte span, mirroring SrcSpan with fields start and end
(the Rust field named end is called stop here because end is a Lean
keyword). -/
structure Span where
  start : Nat
  stop : Nat
deriving DecidableEq, Repr

/-- A comment together with its start offset, mirroring
parse::extra::Comment. -/
structure Comment where
  start : Nat
  content : String
deriving DecidableEq, Repr

/-- The cursor state of the Formatter: the still unconsumed tails of the
extras slices (comments, doc comments, module comments, empty lines,
newlines, trailing commas), mirroring the fields of struct Formatter. -/
structure Ctx where
  comments : List Comment
  docComments : List Comment
  moduleComments : List Comment
  emptyLines : List Nat
  newLines : List Nat
  trailingCommas : List Nat
deriving DecidableEq, Repr

/-- Mirrors Formatter::spans_multiple_lines: the binary search over the
sorted new_lines slice succeeds exactly when some newline offset lies
strictly between start and end, so the search is embedded as that
existence test. -/
def spansMultipleLines (ctx : Ctx) (start stop : Nat) : Bool :=
  ctx.newLines.any (fun n => start < n && n < stop)

/-- Mirrors Formatter::has_trailing_comma: the binary search over the
sorted trailing_commas slice succeeds exactly when some offset c
satisfies start <= c <= end (both comparisons in the Rust comparator are
non-strict). -/
def hasTrailingComma (ctx : Ctx) (start stop : Nat) : Bool :=
  ctx.trailingCommas.any (fun c => start ≤ c && c ≤ stop)

/-- Mirrors Formatter::pop_empty_lines: consume the prefix of
empty_lines whose offsets are at most the limit (the Rust loop breaks at
the first position greater than limit) and report whether anything was
consumed. -/
def popEmptyLines (ctx : Ctx) (limit : Nat) : Bool × Ctx :=
  let popped : Bool :=
    match ctx.emptyLines with
    | [] => false
    | p :: _ => p ≤ limit
  (popped, { ctx with emptyLines := ctx.emptyLines.dropWhile (fun p => p ≤ limit) })

/-- Mirrors Formatter::any_comments: is there a pending comment starting
strictly before the limit? -/
def anyComments (ctx : Ctx) (limit : Nat) : Bool :=
  match ctx.comments with
  | [] => false
  | c :: _ => c.start < limit

/-- Mirrors Formatter::any_empty_lines: is there a pending empty line
strictly before the limit? -/
def anyEmptyLines (ctx : Ctx) (limit : Nat) : Bool :=
  match ctx.emptyLines with
  | [] => false
  | l :: _ => l < limit

/-- Mirrors Formatter::has_items_on_the_same_line: two consecutive items
of the sequence have no newline between the end of the first and the
start of the second. -/
def hasItemsOnSameLine (ctx : Ctx) : List Span → Bool
  | a :: b :: rest =>
    (!spansMultipleLines ctx a.stop b.start) || hasItemsOnSameLine ctx (b :: rest)
  | _ => false

/-- The packing decision for comma separated sequences, mirroring enum
ItemsPacking. -/
inductive ItemsPacking where
  | FitOnePerLine
  | FitMultiplePerLine
  | BreakOnePerLine
deriving DecidableEq, Repr

/-- Mirrors Formatter::items_sequence_packing. The generic item type T
carries its location through the loc function (standing for the
HasLocation bound) and the can_have_multiple_per_line predicate is a
function argument, as in the Rust code. -/
def items_sequence_packing {α : Type} (ctx : Ctx) (loc : α → Span) (canMulti : α → Bool)
    (items : List α) (tail : Option α) (listLocation : Span) : ItemsPacking :=
  let endsWithTrailingComma :=
    match (tail.map (fun t => (loc t).stop)).orElse
        (fun _ => items.getLast?.map (fun i => (loc i).stop)) with
    | some lastElementEnd => hasTrailingComma ctx lastElementEnd listLocation.stop
    | none => false
  let hasMultipleElementsPerLine := hasItemsOnSameLine ctx ((items ++ tail.toList).map loc)
  let hasEmptyLinesBetweenElements :=
    match items.head?, (items.getLast?).orElse (fun _ => tail) with
    | some first, some last =>
      match ctx.emptyLines with
      | [] => false
      | emptyLine :: _ => (loc first).stop ≤ emptyLine && emptyLine < (loc last).start
    | _, _ => false
  if hasEmptyLinesBetweenElements then
    ItemsPacking.BreakOnePerLine
  else if !endsWithTrailingComma then
    ItemsPacking.FitOnePerLine
  else if tail.isNone && items.all canMulti && hasMultipleElementsPerLine
      && spansMultipleLines ctx listLocation.start listLocation.stop then
    ItemsPacking.FitMultiplePerLine
  else
    ItemsPacking.BreakOnePerLine

/-- Does a blank line sit between some two consecutive items of the
sequence? This is the reading of the claim: for some adjacent pair the
blank-line offset is at least the end of the earlier item and strictly
before the start of the later one. -/
def blankBetweenConsecutive (ctx : Ctx) : List Span → Bool
  | a :: b :: rest =>
    ctx.emptyLines.any (fun e => a.stop ≤ e && e < b.start)
      || blankBetweenConsecutive ctx (b :: rest)
  | _ => false

/-- The packing decision exactly as the claim words it: a blank line
between two consecutive items of the sequence (leading items followed by
the tail) forces BreakOnePerLine; else a missing trailing comma gives
FitOnePerLine; else a tail forces BreakOnePerLine; else packable
primitive items with at least two consecutive items sharing a source
line inside a container spanning several lines give FitMultiplePerLine;
otherwise BreakOnePerLine. -/
def claimPacking {α : Type} (ctx : Ctx) (loc : α → Span) (canMulti : α → Bool)
    (items : List α) (tail : Option α) (listLocation : Span) : ItemsPacking :=
  let sequence := (items ++ tail.toList).map loc
  let lastEnd :=
    match (tail.map (fun t => (loc t).stop)).orElse
        (fun _ => items.getLast?.map (fun i => (loc i).stop)) with
    | some e => e
    | none => 0
  let followedByTrailingComma :=
    (!sequence.isEmpty) && hasTrailingComma ctx lastEnd listLocation.stop
  if blankBetweenConsecutive ctx sequence then
    ItemsPacking.BreakOnePerLine
  else if !followedByTrailingComma then
    ItemsPacking.FitOnePerLine
  else if tail.isSome then
    ItemsPacking.BreakOnePerLine
  else if items.all canMulti && hasItemsOnSameLine ctx sequence
      && spansMultipleLines ctx listLocation.start listLocation.stop then
    ItemsPacking.FitMultiplePerLine
  else
    ItemsPacking.BreakOnePerLine

/-- The amended packing decision: identical to the claim except for the
first test, which (as the code does) looks only at the first still
unconsumed blank-line offset and asks whether it falls in the half open
interval from the end of the first leading item to the start of the last
leading item; the tail stands in for the missing side only when there
are no leading items, in which case the test is vacuously false. -/
def amendedPacking {α : Type} (ctx : Ctx) (loc : α → Span) (canMulti : α → Bool)
    (items : List α) (tail : Option α) (listLocation : Span) : ItemsPacking :=
  let lastEnd :=
    match (tail.map (fun t => (loc t).stop)).orElse
        (fun _ => items.getLast?.map (fun i => (loc i).stop)) with
    | some e => e
    | none => 0
  let sequence := (items ++ tail.toList).map loc
  let followedByTrailingComma :=
    (!sequence.isEmpty) && hasTrailingComma ctx lastEnd listLocation.stop
  let firstBlankBetween :=
    match items.head?, (items.getLast?).orElse (fun _ => tail) with
    | some first, some last =>
      match ctx.emptyLines with
      | [] => false
      | emptyLine :: _ => (loc first).stop ≤ emptyLine && emptyLine < (loc last).start
    | _, _ => false
  if firstBlankBetween then
    ItemsPacking.BreakOnePerLine
  else if !followedByTrailingComma then
    ItemsPacking.FitOnePerLine
  else if tail.isSome then
    ItemsPacking.BreakOnePerLine
  else if items.all canMulti && hasItemsOnSameLine ctx sequence
      && spansMultipleLines ctx listLocation.start listLocation.stop then
    ItemsPacking.FitMultiplePerLine
  else
    ItemsPacking.BreakOnePerLine

/-- Auxiliary for claim C3: the trailing-comma probes of the code and of
the claim-shaped functions coincide. -/
theorem endsWithTrailingComma_eq {α : Type} (ctx : Ctx) (loc : α → Span)
    (items : List α) (tail : Option α) (stop : Nat) :
    (match (tail.map (fun t => (loc t).stop)).orElse
        (fun _ => items.getLast?.map (fun i => (loc i).stop)) with
      | some lastElementEnd => hasTrailingComma ctx lastElementEnd stop
      | none => false) =
      ((!((items ++ tail.toList).map loc).isEmpty) &&
        hasTrailingComma ctx
          (match (tail.map (fun t => (loc t).stop)).orElse
              (fun _ => items.getLast?.map (fun i => (loc i).stop)) with
            | some e => e
            | none => 0) stop) := by
  cases tail with
  | none =>
    cases h : items.getLast? with
    | none =>
      have : items = [] := List.getLast?_eq_none_iff.mp h
      subst this
      simp
    | some a =>
      have : items ≠ [] := by
        intro he
        subst he
        simp at h
      simp [Option.orElse, h, List.isEmpty_iff, this]
  | some t =>
    have : items ++ [t] ≠ [] := by simp
    simp [Option.orElse, List.isEmpty_iff, this]

/-- Claim C3 counterexample: a list of three elements whose middle
element contains a blank line inside its own span (with the matching
newlines around it) and no trailing comma. The code sees the first
pending blank-line offset 15 inside the interval from the first item end
3 to the last item start 30 and forces BreakOnePerLine, while the claim
finds no blank line between consecutive items and, lacking a trailing
comma, prescribes FitOnePerLine. -/
theorem c3_packing_counterexample :
    items_sequence_packing
        { comments := [], docComments := [], moduleComments := [],
          emptyLines := [15], newLines := [14, 16], trailingCommas := [] }
        id (fun _ => false)
        [{ start := 2, stop := 3 }, { start := 10, stop := 20 }, { start := 30, stop := 31 }]
        none { start := 0, stop := 40 } = ItemsPacking.BreakOnePerLine
    ∧ claimPacking
        { comments := [], docComments := [], moduleComments := [],
          emptyLines := [15], newLines := [14, 16], trailingCommas := [] }
        id (fun _ => false)
        [{ start := 2, stop := 3 }, { start := 10, stop := 20 }, { start := 30, stop := 31 }]
        none { start := 0, stop := 40 } = ItemsPacking.FitOnePerLine
    ∧ ItemsPacking.BreakOnePerLine ≠ ItemsPacking.FitOnePerLine := by
  refine ⟨by decide, by decide, by decide⟩

/-- Claim C3 (amended): for every cursor state and container, the
packing mode computed by items_sequence_packing is decided in the
claimed order, with the blank-line test amended to inspect only the
first unconsumed blank-line offset against the interval from the first
leading item end to the last leading item start. -/
theorem c3_packing_amended {α : Type} (ctx : Ctx) (loc : α → Span) (canMulti : α → Bool)
    (items : List α) (tail : Option α) (listLocation : Span) :
    items_sequence_packing ctx loc canMulti items tail listLocation =
      amendedPacking ctx loc canMulti items tail listLocation := by
  unfold items_sequence_packing amendedPacking
  rw [endsWithTrailingComma_eq ctx loc items tail listLocation.stop]
  cases tail <;> simp [hasItemsOnSameLine]

/-- The loop body of underscore_integer_string: walk the reversed
character list; i counts all processed characters, j counts the
characters actually emitted; underscores are skipped; before a character
an underscore is inserted when insertion is on, the position is not the
first, the character is not a minus sign, i is below the total length
and j is a multiple of three. -/
def underscoreLoop (insertUnderscores : Bool) (len : Nat) :
    List Char → Nat → Nat → List Char
  | [], _, _ => []
  | c :: rest, i, j =>
    if c = '_' then underscoreLoop insertUnderscores len rest (i + 1) j
    else
      (if insertUnderscores = true ∧ i ≠ 0 ∧ c ≠ '-' ∧ i < len ∧ j % 3 = 0
        then ['_'] else [])
        ++ c :: underscoreLoop insertUnderscores len rest (i + 1) (j + 1)

/-- Mirrors Formatter::underscore_integer_string. Lengths are character
counts; integer literals are ASCII so this agrees with the byte length
the Rust code uses. -/
def underscore_integer_string (value : String) : String :=
  let chars := value.data
  let len := chars.length
  let underscoreCnt := (chars.filter (fun c => c = '_')).length
  let watershed := if chars.head? = some '-' then 6 else 5
  let insertUnderscores := decide (watershed ≤ len - underscoreCnt)
  String.mk ((underscoreLoop insertUnderscores len chars.reverse 0 0).reverse)

/-- Mirrors Formatter::int: hex, binary and octal literals are emitted
verbatim, decimal literals go through underscore_integer_string. -/
def int (value : String) : String :=
  if value.data.take 2 = ['0', 'x'] ∨ value.data.take 2 = ['0', 'b']
      ∨ value.data.take 2 = ['0', 'o'] then
    value
  else
    underscore_integer_string value

/-- Grouping in threes from the right, written over the reversed digit
list: before every digit at an emitted position j that is a non-zero
multiple of three an underscore is inserted. -/
def group3Rev : List Char → Nat → List Char
  | [], _ => []
  | c :: rest, j =>
    (if j ≠ 0 ∧ j % 3 = 0 then ['_'] else []) ++ c :: group3Rev rest (j + 1)

/-- The digits regrouped in threes from the right. -/
def group3 (digits : List Char) : List Char :=
  (group3Rev digits.reverse 0).reverse

/-- The decimal-integer rendering exactly as claim C4 words it: count
the digits excluding underscores and a leading minus sign; when that
count is at least 5 (at least 6 for a negative literal) regroup the
digits in threes from the right, otherwise just strip the underscores. -/
def claimInt (value : String) : String :=
  let neg := value.data.head? = some '-'
  let digits := value.data.filter (fun c => c ≠ '_' ∧ c ≠ '-')
  let threshold := if neg then 6 else 5
  let sign : List Char := if neg then ['-'] else []
  if threshold ≤ digits.length then String.mk (sign ++ group3 digits)
  else String.mk (sign ++ digits)

/-- An equivalent presentation of the underscore loop once the position
counter no longer matters: underscores are skipped and an underscore is
inserted before a non-minus character whenever insertion is on and the
emission counter is a multiple of three. Valid for calls where the
emission counter is at least one. -/
def stripLoop (insertUnderscores : Bool) : List Char → Nat → List Char
  | [], _ => []
  | c :: rest, j =>
    if c = '_' then stripLoop insertUnderscores rest j
    else
      (if insertUnderscores = true ∧ c ≠ '-' ∧ j % 3 = 0 then ['_'] else [])
        ++ c :: stripLoop insertUnderscores rest (j + 1)


/-- Processing a list with a trailing minus sign (the reversed form of a
negative literal) appends the minus sign untouched, since the loop never
inserts an underscore before a minus character. -/
theorem underscoreLoop_append_minus (ins : Bool) (len : Nat) :
    ∀ (l : List Char) (i j : Nat),
      underscoreLoop ins len (l ++ ['-']) i j = underscoreLoop ins len l i j ++ ['-'] := by
  intro l
  induction l with
  | nil =>
    intro i j
    simp [underscoreLoop]
  | cons c rest ih =>
    intro i j
    by_cases hc : c = '_'
    · simp [underscoreLoop, hc, ih]
    · simp [underscoreLoop, hc, ih]

/-- Once at least one character has been emitted, the position counter i
of the underscore loop is irrelevant: it stays at least one and below
the total length, so the loop agrees with stripLoop. -/
theorem underscoreLoop_eq_stripLoop (ins : Bool) (len : Nat) :
    ∀ (l : List Char) (i j : Nat), 1 ≤ j → j ≤ i → i + l.length ≤ len →
      underscoreLoop ins len l i j = stripLoop ins l j := by
  intro l
  induction l with
  | nil => intro i j _ _ _; rfl
  | cons c rest ih =>
    intro i j hj hji hlen
    simp only [List.length_cons] at hlen
    by_cases hc : c = '_'
    · simp only [underscoreLoop, stripLoop, hc, if_pos rfl]
      exact ih (i + 1) j hj (by omega) (by omega)
    · have hi0 : i ≠ 0 := by omega
      have hilen : i < len := by omega
      simp only [underscoreLoop, stripLoop, if_neg hc, hi0, hilen,
        ne_eq, not_false_eq_true, and_true, true_and]
      rw [ih (i + 1) (j + 1) (by omega) (by omega) (by omega)]

/-- The strip loop ignores underscores, so it may as well run on the
underscore-free filtered list. -/
theorem stripLoop_filter (ins : Bool) :
    ∀ (l : List Char) (j : Nat),
      stripLoop ins l j = stripLoop ins (l.filter (fun c => c ≠ '_')) j := by
  intro l
  induction l with
  | nil => intro j; rfl
  | cons c rest ih =>
    intro j
    by_cases hc : c = '_'
    · simp [stripLoop, hc, List.filter_cons, ih]
    · simp [stripLoop, hc, List.filter_cons, ih]

/-- With insertion off the strip loop just strips the underscores. -/
theorem stripLoop_false (l : List Char) :
    ∀ j, stripLoop false l j = l.filter (fun c => c ≠ '_') := by
  induction l with
  | nil => intro j; rfl
  | cons c rest ih =>
    intro j
    by_cases hc : c = '_' <;> simp [stripLoop, hc, List.filter_cons, ih]

/-- With insertion on, on an underscore-free minus-free list and with
the emission counter at least one, the strip loop is exactly grouping in
threes. -/
theorem stripLoop_true_group3Rev :
    ∀ (l : List Char) (j : Nat), 1 ≤ j → (∀ c ∈ l, c ≠ '_' ∧ c ≠ '-') →
      stripLoop true l j = group3Rev l j := by
  intro l
  induction l with
  | nil => intro j _ _; rfl
  | cons c rest ih =>
    intro j hj h
    have hc := h c (by simp)
    have hj0 : j ≠ 0 := by omega
    simp only [stripLoop, group3Rev, if_neg hc.1, hc.2, ne_eq, not_false_eq_true, true_and, hj0]
    rw [ih (j + 1) (by omega) (fun x hx => h x (by simp [hx]))]



/-- The underscore loop applied to the reversed digit part of a literal:
it yields the reversed regrouped digits when insertion is on and the
reversed stripped digits otherwise. -/
theorem underscoreLoop_reverse_eq (ins : Bool) (len : Nat) (body : List Char)
    (hne : body ≠ []) (hlast : body.getLast? ≠ some '_')
    (hchars : ∀ c ∈ body, c ≠ '-')
    (hlen : body.length ≤ len) :
    underscoreLoop ins len body.reverse 0 0 =
      (if ins = true then group3Rev ((body.filter (fun c => c ≠ '_')).reverse) 0
        else (body.filter (fun c => c ≠ '_')).reverse) := by
  have hrevne : body.reverse ≠ [] := by simpa using hne
  obtain ⟨d, rev', hrev⟩ := List.exists_cons_of_ne_nil hrevne
  have hd : d ≠ '_' := by
    have : body.reverse.head? = body.getLast? := List.head?_reverse body
    rw [hrev] at this
    intro hcontra
    subst hcontra
    exact hlast this.symm
  have hfilterrev : (body.filter (fun c => c ≠ '_')).reverse = d :: rev'.filter (fun c => c ≠ '_') := by
    rw [← List.filter_reverse, hrev, List.filter_cons]
    simp [hd]
  have hlen' : 1 + rev'.length ≤ len := by
    have : body.reverse.length = body.length := List.length_reverse body
    rw [hrev] at this
    simp at this
    omega
  have hstep : underscoreLoop ins len (d :: rev') 0 0 = d :: underscoreLoop ins len rev' 1 1 := by
    simp [underscoreLoop, hd]
  rw [hrev, hstep, underscoreLoop_eq_stripLoop ins len rev' 1 1 (by omega) (by omega) hlen']
  cases ins with
  | false =>
    rw [stripLoop_false rev' 1, hfilterrev]
    simp
  | true =>
    rw [stripLoop_filter true rev' 1]
    rw [stripLoop_true_group3Rev (rev'.filter (fun c => c ≠ '_')) 1 (by omega) ?side]
    case side =>
      intro c hcmem
      have hcrev : c ∈ rev' := List.mem_of_mem_filter hcmem
      have hcbody : c ∈ body := by
        have : c ∈ body.reverse := by rw [hrev]; exact List.mem_cons_of_mem d hcrev
        simpa using this
      refine ⟨?_, hchars c hcbody⟩
      have := List.of_mem_filter hcmem
      simpa using this
    rw [hfilterrev]
    simp [group3Rev]

/-- Claim C4 (amended): a decimal integer literal, written as an
optional minus sign followed by a nonempty body of digits and
underscores not ending in an underscore, is regrouped in threes from the
right exactly when its digit count (excluding underscores and the minus
sign) is at least 5, for negative and non-negative literals alike;
otherwise its underscores are stripped. -/
theorem int_amended (neg : Bool) (body : List Char)
    (hne : body ≠ [])
    (hlast : body.getLast? ≠ some '_')
    (hchars : ∀ c ∈ body, c.isDigit = true ∨ c = '_') :
    int (String.mk ((if neg then ['-'] else []) ++ body)) =
      String.mk ((if neg then ['-'] else []) ++
        (if 5 ≤ (body.filter (fun c => c ≠ '_')).length
          then group3 (body.filter (fun c => c ≠ '_'))
          else body.filter (fun c => c ≠ '_'))) := by
  obtain ⟨b0, rest, rfl⟩ := List.exists_cons_of_ne_nil hne
  -- the second character of the literal is never x, b or o
  have hsecond : ∀ b1 rest', rest = b1 :: rest' → b1 ≠ 'x' ∧ b1 ≠ 'b' ∧ b1 ≠ 'o' := by
    intro b1 rest' hr
    have hb1 := hchars b1 (by simp [hr])
    rcases hb1 with h | h
    · refine ⟨?_, ?_, ?_⟩ <;> intro hcontra <;> subst hcontra <;> exact absurd h (by decide)
    · subst h
      refine ⟨by decide, by decide, by decide⟩
  have hb0 := hchars b0 (by simp)
  have hb0ne : b0 ≠ '-' := by
    rcases hb0 with h | h
    · intro hcontra; subst hcontra; exact absurd h (by decide)
    · subst h; decide
  -- step A: the prefix test of int fails
  have hprefix :
      ¬ ((((if neg then ['-'] else []) ++ b0 :: rest).take 2 = ['0', 'x'])
        ∨ (((if neg then ['-'] else []) ++ b0 :: rest).take 2 = ['0', 'b'])
        ∨ (((if neg then ['-'] else []) ++ b0 :: rest).take 2 = ['0', 'o'])) := by
    cases neg with
    | true =>
      simp only [if_pos rfl]
      rintro (h | h | h) <;> simp [List.take] at h
    | false =>
      simp only [if_neg (by decide : ¬ (false = true))]
      cases rest with
      | nil => rintro (h | h | h) <;> simp [List.take] at h
      | cons b1 rest' =>
        obtain ⟨hx, hb, ho⟩ := hsecond b1 rest' rfl
        rintro (h | h | h) <;> simp [List.take] at h
        · exact hx h.2
        · exact hb h.2
        · exact ho h.2
  have hchars' : ∀ c ∈ b0 :: rest, c ≠ '-' := by
    intro c hc
    rcases hchars c hc with h | h
    · intro hco; subst hco; exact absurd h (by decide)
    · subst h; decide
  have hfun : (fun c => !decide (c = '_')) = (fun c => decide (c ≠ '_')) := by
    funext c
    by_cases h : c = '_' <;> simp [h]
  have hpart : (b0 :: rest).length =
      ((b0 :: rest).filter (fun c => c = '_')).length
        + ((b0 :: rest).filter (fun c => c ≠ '_')).length := by
    have := List.length_eq_length_filter_add (l := b0 :: rest) (fun c => decide (c = '_'))
    rw [hfun] at this
    simpa using this
  simp only [List.length_cons] at hpart
  unfold int
  rw [if_neg ?hpre]
  case hpre => exact hprefix
  unfold underscore_integer_string
  cases neg with
  | true =>
    have hsign : (if (true : Bool) = true then (['-'] : List Char) else []) = ['-'] := rfl
    rw [hsign]
    have e1 : (['-'] ++ b0 :: rest : List Char) = '-' :: b0 :: rest := rfl
    rw [e1]
    simp only []
    have e2 : ('-' :: b0 :: rest).head? = some '-' := rfl
    rw [e2, if_pos rfl]
    have e3 : List.filter (fun c => decide (c = '_')) ('-' :: b0 :: rest)
        = List.filter (fun c => decide (c = '_')) (b0 :: rest) := by
      simp [List.filter_cons]
    rw [e3]
    have e5 : ('-' :: b0 :: rest).reverse = (b0 :: rest).reverse ++ ['-'] := by
      simp [List.reverse_cons]
    rw [e5, underscoreLoop_append_minus]
    rw [underscoreLoop_reverse_eq _ _ (b0 :: rest) hne hlast hchars' (by simp)]
    by_cases h5 : 5 ≤ (List.filter (fun c => decide (c ≠ '_')) (b0 :: rest)).length
    · have hins : decide ((if ('-' :: b0 :: rest : List Char).head? = some '-' then 6 else 5)
          ≤ ('-' :: b0 :: rest : List Char).length
            - (List.filter (fun c => decide (c = '_')) (b0 :: rest)).length) = true := by
        rw [e2, if_pos rfl]
        simp only [decide_eq_true_eq, List.length_cons]
        omega
      rw [e2, if_pos rfl] at hins
      rw [hins, if_pos rfl, if_pos h5]
      simp [group3]
    · have hins : decide ((6:Nat)
          ≤ ('-' :: b0 :: rest : List Char).length
            - (List.filter (fun c => decide (c = '_')) (b0 :: rest)).length) = false := by
        simp only [decide_eq_false_iff_not, List.length_cons]
        omega
      rw [hins, if_neg (by decide : ¬ (false = true)), if_neg h5]
      simp
  | false =>
    have hsign : (if (false : Bool) = true then (['-'] : List Char) else []) = [] := rfl
    rw [hsign]
    have e1 : (([] : List Char) ++ b0 :: rest) = b0 :: rest := rfl
    rw [e1]
    simp only []
    have e2 : (b0 :: rest).head? = some b0 := rfl
    have hb0m : ¬ ((b0 :: rest).head? = some '-') := by
      rw [e2]
      intro h
      exact hb0ne (by injection h)
    rw [if_neg hb0m]
    rw [underscoreLoop_reverse_eq _ _ (b0 :: rest) hne hlast hchars' (by simp)]
    by_cases h5 : 5 ≤ (List.filter (fun c => decide (c ≠ '_')) (b0 :: rest)).length
    · have hins : decide ((5:Nat)
          ≤ (b0 :: rest : List Char).length
            - (List.filter (fun c => decide (c = '_')) (b0 :: rest)).length) = true := by
        simp only [decide_eq_true_eq, List.length_cons]
        omega
      rw [hins, if_pos rfl, if_pos h5]
      simp [group3]
    · have hins : decide ((5:Nat)
          ≤ (b0 :: rest : List Char).length
            - (List.filter (fun c => decide (c = '_')) (b0 :: rest)).length) = false := by
        simp only [decide_eq_false_iff_not, List.length_cons]
        omega
      rw [hins, if_neg (by decide : ¬ (false = true)), if_neg h5]
      simp

/-- Claim C4 counterexample: the negative five-digit literal -99999.
The code counts the minus sign into the length it compares against the
watershed of six, so five digits suffice and it emits -99_999; the claim
requires at least six digits for a negative literal and so prescribes
the stripped form -99999. -/
theorem c4_int_counterexample :
    int ("-99999") = "-99_999" ∧ claimInt ("-99999") = "-99999"
      ∧ ("-99_999" : String) ≠ "-99999" := by
  refine ⟨by decide, by decide, by decide⟩


/-- Claim C4 witness: the amended theorem applied to the concrete
positive literal 12_345, whose five digits trigger regrouping. -/
theorem c4_int_amended_witness :
    int (String.mk ((if (false : Bool) then ['-'] else []) ++ ['1', '2', '_', '3', '4', '5']))
      = "12_345" :=
  (int_amended false ['1', '2', '_', '3', '4', '5'] (by decide) (by decide)
    (by decide)).trans (by decide)

/-- Modelled from the spec: the next-break-fits mode toggle of the
document engine (crate::pretty is not part of the given source). -/
inductive NextBreakFitsMode where
  | Enabled
  | Disabled
deriving DecidableEq, Repr

/-- Modelled from the spec: the document algebra of the layout engine
(crate::pretty is not part of the given source). The constructors are
the capabilities the spec lists: text, hard line (n newlines then
indentation), soft break and flex break with distinct broken and
unbroken texts, concatenation, nesting, group, force-break, the
next-break-fits toggle and an absolute nesting override. -/
inductive Document where
  | nil
  | text (s : String)
  | append (a b : Document)
  | line (n : Nat)
  | break_ (broken unbroken : String)
  | flexBreak (broken unbroken : String)
  | nest (i : Nat) (d : Document)
  | group (d : Document)
  | forceBreak (d : Document)
  | nextBreakFits (d : Document) (mode : NextBreakFitsMode)
  | setNesting (n : Nat) (d : Document)
deriving DecidableEq, Repr

/-- Modelled from the spec: a document is empty when it renders no text
in any mode. -/
def Document.isEmpty : Document → Bool
  | .nil => true
  | .text s => s.isEmpty
  | .append a b => a.isEmpty && b.isEmpty
  | .line _ => false
  | .break_ _ _ => false
  | .flexBreak _ _ => false
  | .nest _ d => d.isEmpty
  | .group d => d.isEmpty
  | .forceBreak d => d.isEmpty
  | .nextBreakFits d _ => d.isEmpty
  | .setNesting _ d => d.isEmpty

/-- Concatenation of a list of documents, mirroring pretty::concat and
the Documentable instance for vectors of documents. -/
def concatD (ds : List Document) : Document :=
  ds.foldr Document.append Document.nil

/-- Mirrors pretty::join: the documents interspersed with a separator. -/
def joinD (ds : List Document) (sep : Document) : Document :=
  concatD (ds.intersperse sep)

/-- Modelled from the spec: the broken-mode rendering of a document at a
given indentation. Hard lines render their newlines followed by the
indentation; soft and flex breaks render their broken text followed by a
newline and the indentation. The claims below apply this renderer only
to documents whose layout is forced (text and hard lines at the
top level), where the flat and broken layouts coincide, so the group
fitting decision of the real engine never changes these renders. -/
def render (indent : Nat) : Document → String
  | .nil => ""
  | .text s => s
  | .append a b => render indent a ++ render indent b
  | .line n => String.mk (List.replicate n (Char.ofNat 10)) ++ String.mk (List.replicate indent ' ')
  | .break_ broken _ => broken ++ String.mk ((Char.ofNat 10) :: List.replicate indent ' ')
  | .flexBreak broken _ => broken ++ String.mk ((Char.ofNat 10) :: List.replicate indent ' ')
  | .nest i d => render (indent + i) d
  | .group d => render indent d
  | .forceBreak d => render indent d
  | .nextBreakFits d _ => render indent d
  | .setNesting n d => render n d

/-- The coalescing step of comments_before: runs of consecutive
blank-line offsets (each exactly one past the previous) are compacted,
keeping the start of the run. -/
def coalesceAux (runStart runEnd : Nat) : List Nat → List Nat
  | [] => [runStart]
  | b :: rest =>
    if runEnd + 1 = b then coalesceAux runStart b rest
    else runStart :: coalesceAux b b rest

/-- Compacts consecutive empty-line offsets into single entries,
mirroring the coalesce call in comments_before. -/
def coalesceStarts : List Nat → List Nat
  | [] => []
  | x :: rest => coalesceAux x x rest

/-- Mirrors the merge_by call of comments_before: merge two streams of
positioned entries, taking from the left while its position is strictly
smaller. Written with an explicit structural fuel (the combined length,
at which the fuel can never run out) so that the kernel can evaluate
it. -/
def mergeByStartFuel : Nat → List (Nat × Option String) → List (Nat × Option String) →
    List (Nat × Option String)
  | 0, l, r => l ++ r
  | _ + 1, [], r => r
  | _ + 1, l, [] => l
  | fuel + 1, a :: l, b :: r =>
    if a.1 < b.1 then a :: mergeByStartFuel fuel l (b :: r)
    else b :: mergeByStartFuel fuel (a :: l) r

/-- The merge of the two positioned streams. -/
def mergeByStart (l r : List (Nat × Option String)) : List (Nat × Option String) :=
  mergeByStartFuel (l.length + r.length) l r

/-- Mirrors format::comments_before: split off the comments and empty
lines up to the limit, optionally retaining the empty lines as
positioned gaps, compacting blank runs, merging the two streams by
position and dropping leading gaps. Returns the popped entries and the
remaining comment and empty-line slices. -/
def commentsBefore (comments : List Comment) (emptyLines : List Nat)
    (limit : Nat) (retainEmptyLines : Bool) :
    List (Nat × Option String) × List Comment × List Nat :=
  let poppedComments :=
    (comments.takeWhile (fun c => c.start ≤ limit)).map
      (fun c => (c.start, some c.content))
  let restComments := comments.dropWhile (fun c => c.start ≤ limit)
  let poppedEmpty :=
    (coalesceStarts ((if retainEmptyLines then emptyLines else []).takeWhile
        (fun l => l ≤ limit))).map
      (fun l => (l, (none : Option String)))
  let restEmpty := emptyLines.dropWhile (fun l => l ≤ limit)
  let popped := (mergeByStart poppedComments poppedEmpty).dropWhile
      (fun p => p.2.isNone)
  (popped, restComments, restEmpty)

/-- Mirrors Formatter::pop_comments_with_position. -/
def popCommentsWithPosition (ctx : Ctx) (limit : Nat) :
    List (Nat × Option String) × Ctx :=
  let (popped, restComments, restEmpty) :=
    commentsBefore ctx.comments ctx.emptyLines limit true
  (popped, { ctx with comments := restComments, emptyLines := restEmpty })

/-- Mirrors Formatter::pop_comments: the popped entries without their
positions. -/
def popComments (ctx : Ctx) (limit : Nat) : List (Option String) × Ctx :=
  let (popped, ctx') := popCommentsWithPosition ctx limit
  (popped.map Prod.snd, ctx')

/-- Mirrors Formatter::pop_doc_comments: same over the doc-comment
slice, dropping the empty lines instead of retaining them. -/
def popDocComments (ctx : Ctx) (limit : Nat) : List (Option String) × Ctx :=
  let (popped, restDocComments, restEmpty) :=
    commentsBefore ctx.docComments ctx.emptyLines limit false
  (popped.map Prod.snd,
    { ctx with docComments := restDocComments, emptyLines := restEmpty })

/-- The loop of format::printed_comments: each comment becomes a
double-slash text; a following comment gives a single newline, a
following gap gives a double newline when anything comes after it (or at
the very end when a trailing newline was requested), and the last
comment is followed by a single newline only when a trailing newline was
requested. -/
def printedCommentsLoop (trailingNewline : Bool) : List (Option String) → List Document
  | [] => []
  | none :: rest => printedCommentsLoop trailingNewline rest
  | [some c] =>
    Document.text ("//" ++ c) ::
      (if trailingNewline then [Document.line 1] else [])
  | some c :: some c2 :: rest =>
    Document.text ("//" ++ c) :: Document.line 1 ::
      printedCommentsLoop trailingNewline (some c2 :: rest)
  | [some c, none] =>
    Document.text ("//" ++ c) ::
      (if trailingNewline then [Document.line 2] else [])
  | some c :: none :: next :: rest2 =>
    Document.text ("//" ++ c) :: Document.line 2 ::
      printedCommentsLoop trailingNewline (next :: rest2)

/-- Mirrors format::printed_comments: none when there is nothing to
print, otherwise the concatenated loop output, force-broken when a
trailing newline was requested. -/
def printed_comments (comments : List (Option String)) (trailingNewline : Bool) :
    Option Document :=
  match comments with
  | [] => none
  | _ =>
    let doc := concatD (printedCommentsLoop trailingNewline comments)
    some (if trailingNewline then doc.forceBreak else doc)

/-- The maximal u32 value, used by module to pop every remaining
comment. -/
def maxLimit : Nat := 4294967295

/-- Mirrors Formatter::module, lines 208 to 268 of format.rs. The
definitions loop (chunking imports and formatting each definition) is
passed in as a function from cursor state to cursor state and document,
since claim C5 is about the assembly that follows it: collect the
definitions, then the leftover doc comments, then the leftover regular
comments popped up to u32::MAX, then the module comments block (itself
followed by one extra newline), keep the nonempty sections in the order
module comments, definitions, doc comments, comments, join them with
single hard newlines and append the final newline. -/
def module (processDefinitions : Ctx → Ctx × Document) (ctx : Ctx) : Document :=
  let (ctx1, definitions) := processDefinitions ctx
  let docComments := joinD (ctx1.docComments.map
      (fun c => Document.text ("///" ++ c.content))) (Document.line 1)
  let comments :=
    match printed_comments (popComments ctx1 maxLimit).1 false with
    | some c => c
    | none => Document.nil
  let moduleComments :=
    if ctx1.moduleComments.isEmpty then Document.nil
    else
      (joinD (ctx1.moduleComments.map
          (fun c => Document.text ("////" ++ c.content))) (Document.line 1)).append
        (Document.line 1)
  let nonEmpty := [moduleComments, definitions, docComments, comments].filter
      (fun d => !d.isEmpty)
  (joinD nonEmpty (Document.line 1)).append (Document.line 1)

/-- Strings joined by a separator (the string-level counterpart of
joinD). -/
def sepJoin (sep : String) : List String → String
  | [] => ""
  | [s] => s
  | s :: rest => s ++ sep ++ sepJoin sep rest

/-- The module text exactly as claim C5 words it: the nonempty sections
(module comments, definition block, leftover doc comments, leftover
comments) each separated from the next by one blank line, with a single
trailing newline. -/
def claimModuleRender (moduleCommentLines : List String) (definitions : String)
    (docCommentLines : List String) (comments : String) : String :=
  let sections :=
    [sepJoin "\n" (moduleCommentLines.map (fun c => "////" ++ c)),
      definitions,
      sepJoin "\n" (docCommentLines.map (fun c => "///" ++ c)),
      comments].filter (fun s => s ≠ "")
  sepJoin "\n\n" sections ++ "\n"

/-- The module text as amended: the nonempty sections in the same order
are separated by a single newline each, except that the module-comments
block carries one extra newline of its own (so only that section is
followed by a blank line), and the file ends with a single newline. -/
def amendedModuleRender (moduleCommentLines : List String) (definitions : String)
    (docCommentLines : List String) (comments : String) : String :=
  let moduleSection :=
    if moduleCommentLines.isEmpty then ""
    else sepJoin "\n" (moduleCommentLines.map (fun c => "////" ++ c)) ++ "\n"
  let docSection := sepJoin "\n" (docCommentLines.map (fun c => "///" ++ c))
  let sections := [moduleSection, definitions, docSection, comments].filter
      (fun s => s ≠ "")
  sepJoin "\n" sections ++ "\n"

/-- The string rendering of a popped comment run, mirroring the shape of
printedCommentsLoop at the text level: single newlines between adjacent
comments, double newlines across preserved gaps. -/
def commentsText (trailingNewline : Bool) : List (Option String) → String
  | [] => ""
  | none :: rest => commentsText trailingNewline rest
  | [some c] => "//" ++ c ++ (if trailingNewline then "\n" else "")
  | some c :: some c2 :: rest =>
    "//" ++ c ++ "\n" ++ commentsText trailingNewline (some c2 :: rest)
  | [some c, none] => "//" ++ c ++ (if trailingNewline then "\n\n" else "")
  | some c :: none :: next :: rest2 =>
    "//" ++ c ++ "\n\n" ++ commentsText trailingNewline (next :: rest2)

/-- Documents whose hard lines all print at least one newline and that
contain no soft or flex breaks that could vanish: for these, emptiness
of the document coincides with emptiness of its rendering. -/
def hardLinesPositive : Document → Bool
  | .nil => true
  | .text _ => true
  | .append a b => hardLinesPositive a && hardLinesPositive b
  | .line n => decide (0 < n)
  | .break_ _ _ => true
  | .flexBreak _ _ => true
  | .nest _ d => hardLinesPositive d
  | .group d => hardLinesPositive d
  | .forceBreak d => hardLinesPositive d
  | .nextBreakFits d _ => hardLinesPositive d
  | .setNesting _ d => hardLinesPositive d

/-- String concatenation is empty exactly when both parts are. -/
theorem string_append_eq_empty (a b : String) : a ++ b = "" ↔ a = "" ∧ b = "" := by
  constructor
  · intro h
    have hd : a.data ++ b.data = [] := by
      have : (a ++ b).data = ("" : String).data := by rw [h]
      simpa [String.data_append] using this
    have := List.append_eq_nil.mp hd
    constructor
    · cases a with
      | mk d => simp_all
    · cases b with
      | mk d => simp_all
  · rintro ⟨rfl, rfl⟩
    rfl

/-- For a document whose hard lines are positive, emptiness coincides
with rendering to the empty string at every indentation. -/
theorem isEmpty_iff_render (d : Document) (h : hardLinesPositive d = true) (n : Nat) :
    d.isEmpty = true ↔ render n d = "" := by
  induction d generalizing n with
  | nil => simp [Document.isEmpty, render]
  | text s =>
    simp only [Document.isEmpty, render]
    exact String.isEmpty_iff s
  | append a b iha ihb =>
    simp only [hardLinesPositive, Bool.and_eq_true] at h
    simp only [Document.isEmpty, render, Bool.and_eq_true, string_append_eq_empty]
    rw [iha h.1 n, ihb h.2 n]
  | line m =>
    simp only [hardLinesPositive, decide_eq_true_eq] at h
    simp only [Document.isEmpty, render]
    constructor
    · intro hc; cases hc
    · intro hc
      exfalso
      have : (String.mk (List.replicate m (Char.ofNat 10))
          ++ String.mk (List.replicate n ' ')).data = [] := by rw [hc]
      rw [String.data_append] at this
      have := List.append_eq_nil.mp this
      have h2 := this.1
      simp at h2
      omega
  | break_ broken unbroken =>
    simp only [Document.isEmpty, render]
    constructor
    · intro hc; cases hc
    · intro hc
      exfalso
      have : (broken ++ String.mk (Char.ofNat 10 :: List.replicate n ' ')).data = [] := by
        rw [hc]
      rw [String.data_append] at this
      have := List.append_eq_nil.mp this
      simp at this
  | flexBreak broken unbroken =>
    simp only [Document.isEmpty, render]
    constructor
    · intro hc; cases hc
    · intro hc
      exfalso
      have : (broken ++ String.mk (Char.ofNat 10 :: List.replicate n ' ')).data = [] := by
        rw [hc]
      rw [String.data_append] at this
      have := List.append_eq_nil.mp this
      simp at this
  | nest i d ih =>
    simp only [hardLinesPositive] at h
    simpa [Document.isEmpty, render] using ih h (n + i)
  | group d ih =>
    simp only [hardLinesPositive] at h
    simpa [Document.isEmpty, render] using ih h n
  | forceBreak d ih =>
    simp only [hardLinesPositive] at h
    simpa [Document.isEmpty, render] using ih h n
  | nextBreakFits d mode ih =>
    simp only [hardLinesPositive] at h
    simpa [Document.isEmpty, render] using ih h n
  | setNesting m d ih =>
    simp only [hardLinesPositive] at h
    simpa [Document.isEmpty, render] using ih h m

/-- Rendering a single hard newline at top level. -/
theorem render_line_one : render 0 (Document.line 1) = "\n" := by decide

/-- Rendering distributes over document concatenation. -/
theorem render_append (n : Nat) (a b : Document) :
    render n (a.append b) = render n a ++ render n b := rfl

/-- Rendering a text document is its own string. -/
theorem render_text (n : Nat) (s : String) : render n (Document.text s) = s := rfl

/-- Rendering a double hard newline at top level. -/
theorem render_line_two : render 0 (Document.line 2) = "\n\n" := by decide

/-- Rendering a join with single hard newlines is joining the renders
with newline characters. -/
theorem render_joinD_line (ds : List Document) :
    render 0 (joinD ds (Document.line 1)) = sepJoin "\n" (ds.map (render 0)) := by
  induction ds with
  | nil => rfl
  | cons d rest ih =>
    cases rest with
    | nil => simp [joinD, concatD, sepJoin, render]
    | cons d2 rest2 =>
      simp only [joinD, concatD, List.intersperse, List.foldr_cons] at ih ⊢
      simp only [List.map_cons] at ih
      simp only [render_append, render_line_one, List.map_cons, sepJoin]
      rw [ih]
      simp [String.append_assoc]

/-- Filtering the nonempty documents and rendering is rendering and
filtering the nonempty strings, for documents with positive hard
lines. -/
theorem filter_map_render (ds : List Document)
    (h : ∀ d ∈ ds, hardLinesPositive d = true) :
    (ds.filter (fun d => !d.isEmpty)).map (render 0)
      = (ds.map (render 0)).filter (fun s => s ≠ "") := by
  induction ds with
  | nil => rfl
  | cons d rest ih =>
    have hd := h d (by simp)
    have hrest : ∀ x ∈ rest, hardLinesPositive x = true := fun x hx => h x (by simp [hx])
    by_cases he : d.isEmpty = true
    · have hr : render 0 d = "" := (isEmpty_iff_render d hd 0).mp he
      simp [List.filter_cons, he, hr, ih hrest]
    · have hr : ¬ (render 0 d = "") := fun hc => he ((isEmpty_iff_render d hd 0).mpr hc)
      simp [List.filter_cons, he, hr, ih hrest]

/-- Members of an interspersed list are the separator or members of the
original list. -/
theorem mem_intersperse {α : Type} (sep : α) :
    ∀ (l : List α) (x : α), x ∈ l.intersperse sep → x = sep ∨ x ∈ l
  | [], x, h => by simp [List.intersperse] at h
  | [a], x, h => by
    simp [List.intersperse] at h
    simp [h]
  | a :: b :: rest, x, h => by
    simp only [List.intersperse, List.mem_cons] at h
    rcases h with h | h | h
    · right; simp [h]
    · left; exact h
    · rcases mem_intersperse sep (b :: rest) x h with h2 | h2
      · left; exact h2
      · right; simp [h2]

/-- Concatenating documents with positive hard lines keeps the property. -/
theorem hard_concatD (ds : List Document)
    (h : ∀ d ∈ ds, hardLinesPositive d = true) :
    hardLinesPositive (concatD ds) = true := by
  induction ds with
  | nil => rfl
  | cons d rest ih =>
    simp only [concatD, List.foldr_cons]
    show (hardLinesPositive d && hardLinesPositive (concatD rest)) = true
    rw [h d (by simp), ih (fun x hx => h x (by simp [hx]))]
    rfl

/-- Joining documents with positive hard lines by such a separator keeps
the property. -/
theorem hard_joinD (ds : List Document) (sep : Document)
    (h : ∀ d ∈ ds, hardLinesPositive d = true)
    (hsep : hardLinesPositive sep = true) :
    hardLinesPositive (joinD ds sep) = true := by
  refine hard_concatD _ (fun d hd => ?_)
  rcases mem_intersperse sep ds d hd with h2 | h2
  · rw [h2]; exact hsep
  · exact h d h2

/-- The printed-comments loop yields only texts and hard newlines, so
its concatenation has positive hard lines. -/
theorem hard_printedCommentsLoop (t : Bool) (cs : List (Option String)) :
    hardLinesPositive (concatD (printedCommentsLoop t cs)) = true := by
  induction cs using printedCommentsLoop.induct t with
  | case1 => rfl
  | case2 rest ih => simpa [printedCommentsLoop] using ih
  | case3 c =>
    cases t <;> simp [printedCommentsLoop, concatD, hardLinesPositive]
  | case4 c c2 rest ih =>
    simp only [printedCommentsLoop, concatD, List.foldr_cons] at ih ⊢
    simp [hardLinesPositive, ih]
  | case5 c =>
    cases t <;> simp [printedCommentsLoop, concatD, hardLinesPositive]
  | case6 c next rest2 ih =>
    simp only [printedCommentsLoop, concatD, List.foldr_cons] at ih ⊢
    simp [hardLinesPositive, ih]

/-- Rendering the printed-comments loop output is the comment text. -/
theorem render_printedCommentsLoop (t : Bool) (cs : List (Option String)) :
    render 0 (concatD (printedCommentsLoop t cs)) = commentsText t cs := by
  induction cs using printedCommentsLoop.induct t with
  | case1 => rfl
  | case2 rest ih => simpa [printedCommentsLoop, commentsText] using ih
  | case3 c =>
    cases t <;>
      simp [printedCommentsLoop, commentsText, concatD, render_append, render,
        render_line_one, String.append_empty, String.append_assoc]
  | case4 c c2 rest ih =>
    simp only [printedCommentsLoop, commentsText, concatD, List.foldr_cons] at ih ⊢
    simp only [render_append, render_line_one, render]
    rw [ih]
    simp [String.append_assoc]
  | case5 c =>
    cases t <;>
      simp [printedCommentsLoop, commentsText, concatD, render_append, render,
        String.append_empty, String.append_assoc]
  | case6 c next rest2 ih =>
    simp only [printedCommentsLoop, commentsText, concatD, List.foldr_cons] at ih ⊢
    simp only [render_append, render_text, render_line_two]
    rw [ih]
    simp [String.append_assoc]

/-- Claim C5 counterexample: a module with one definition and one
leftover doc comment. The code separates the definition block from the
floated doc comment by a single newline, while the claim calls for one
blank line between each pair of present sections. -/
theorem c5_module_counterexample :
    render 0 (module (fun c => (c, Document.text ("pub fn main()")))
        { comments := [], docComments := [{ start := 50, content := " tail" }],
          moduleComments := [], emptyLines := [], newLines := [], trailingCommas := [] })
      = "pub fn main()\n/// tail\n"
    ∧ claimModuleRender [] ("pub fn main()") [" tail"] ""
      = "pub fn main()\n\n/// tail\n"
    ∧ ("pub fn main()\n/// tail\n" : String) ≠ "pub fn main()\n\n/// tail\n" := by
  refine ⟨by decide, by decide, by decide⟩

/-- Claim C5 (amended): the rendered module consists, in order, of the
module-level comments at the very top, the definition block, the
remaining doc comments, and the remaining regular comments; the present
sections are separated by a single newline each (only the
module-comments block carries an extra newline of its own, so only it is
followed by a blank line), and the output ends with exactly one trailing
newline. Stated for any definitions processor whose document has
positive hard lines. -/
theorem c5_module_amended (processDefinitions : Ctx → Ctx × Document) (ctx : Ctx)
    (hdefs : hardLinesPositive (processDefinitions ctx).2 = true) :
    render 0 (module processDefinitions ctx) =
      amendedModuleRender
        ((processDefinitions ctx).1.moduleComments.map Comment.content)
        (render 0 (processDefinitions ctx).2)
        ((processDefinitions ctx).1.docComments.map Comment.content)
        (commentsText false (popComments (processDefinitions ctx).1 maxLimit).1) := by
  rcases hpd : processDefinitions ctx with ⟨ctx1, defs⟩
  rw [hpd] at hdefs
  unfold module
  rw [hpd]
  simp only []
  rw [render_append, render_line_one, render_joinD_line]
  rw [filter_map_render _ ?hard]
  case hard =>
    intro d hd
    simp only [List.mem_cons, List.not_mem_nil, or_false] at hd
    rcases hd with rfl | rfl | rfl | rfl
    · cases hmc : ctx1.moduleComments with
      | nil => simp [hardLinesPositive]
      | cons c rest =>
        simp only [List.isEmpty_cons, if_neg (by decide : ¬ (false = true))]
        show (hardLinesPositive _ && hardLinesPositive (Document.line 1)) = true
        rw [hard_joinD _ _ ?texts (by decide)]
        · rfl
        case texts =>
          intro x hx
          simp only [List.mem_map] at hx
          obtain ⟨c2, _, rfl⟩ := hx
          rfl
    · exact hdefs
    · refine hard_joinD _ _ (fun x hx => ?_) (by decide)
      simp only [List.mem_map] at hx
      obtain ⟨c2, _, rfl⟩ := hx
      rfl
    · cases hpc : (popComments ctx1 maxLimit).1 with
      | nil => rfl
      | cons p rest =>
        simpa [printed_comments] using hard_printedCommentsLoop false (p :: rest)
  have hmcsec : render 0 (if ctx1.moduleComments.isEmpty then Document.nil
      else (joinD (ctx1.moduleComments.map
          (fun c => Document.text ("////" ++ c.content))) (Document.line 1)).append
        (Document.line 1))
      = (if (ctx1.moduleComments.map Comment.content).isEmpty then ""
        else sepJoin "\n" (((ctx1.moduleComments.map Comment.content)).map
            (fun c => "////" ++ c)) ++ "\n") := by
    cases ctx1.moduleComments with
    | nil => rfl
    | cons c rest =>
      simp only [List.isEmpty_cons, List.map_cons, if_neg (by decide : ¬ (false = true))]
      rw [render_append, render_line_one, render_joinD_line]
      simp only [List.map_cons, List.map_map]
      rfl
  have hdcsec : render 0 (joinD (ctx1.docComments.map
        (fun c => Document.text ("///" ++ c.content))) (Document.line 1))
      = sepJoin "\n" ((ctx1.docComments.map Comment.content).map (fun c => "///" ++ c)) := by
    rw [render_joinD_line]
    simp only [List.map_map]
    rfl
  have hcmsec : render 0 (match printed_comments (popComments ctx1 maxLimit).1 false with
        | some c => c
        | none => Document.nil)
      = commentsText false (popComments ctx1 maxLimit).1 := by
    cases hpc : (popComments ctx1 maxLimit).1 with
    | nil => rfl
    | cons p rest =>
      simpa [printed_comments] using render_printedCommentsLoop false (p :: rest)
  simp only [List.map_cons, List.map_nil, hmcsec, hdcsec, hcmsec]
  rfl

/-- Claim C5 witness: the amended theorem applied to a module with one
definition and one leftover doc comment. -/
theorem c5_module_amended_witness :
    render 0 (module (fun c => (c, Document.text ("pub fn main()")))
        { comments := [], docComments := [{ start := 50, content := " tail" }],
          moduleComments := [], emptyLines := [], newLines := [], trailingCommas := [] })
      = "pub fn main()\n/// tail\n" :=
  (c5_module_amended (fun c => (c, Document.text ("pub fn main()")))
    { comments := [], docComments := [{ start := 50, content := " tail" }],
      moduleComments := [], emptyLines := [], newLines := [], trailingCommas := [] }
    (by decide)).trans (by decide)

/-- Mirrors Error::Parse as built at lines 30 to 34 of format.rs: the
parse error wraps the path, the source buffer and the boxed inner parser
error. The inner error type is abstract since the parser is an external
collaborator. -/
inductive FormatterError (ε : Type) where
  | Parse (path : String) (src : String) (error : ε)
deriving DecidableEq, Repr

/-- Mirrors format::pretty, lines 28 to 39. The external collaborators
are parameters: parseModule stands for crate::parse::parse_module (on
path and source), renderModule for the composition of
Formatter::with_comments, module and pretty_print at width 80. The
caller-supplied sink is the list of strings written so far; on success
the rendered module is appended to it, on parse failure the error is
wrapped unchanged and the sink is returned untouched. -/
def pretty {ε μ : Type} (parseModule : String → String → Except ε μ)
    (renderModule : μ → String) (writer : List String) (src : String)
    (path : String) : List String × Except (FormatterError ε) Unit :=
  match parseModule path src with
  | Except.error e => (writer, Except.error (FormatterError.Parse path src e))
  | Except.ok parsed => (writer ++ [renderModule parsed], Except.ok ())

/-- Claim C2: when parsing the source fails, pretty returns a Parse
error carrying the path, the source buffer and the inner parser error
unchanged, and the caller-supplied sink is untouched. -/
theorem c2_pretty_parse_error {ε μ : Type} (parseModule : String → String → Except ε μ)
    (renderModule : μ → String) (writer : List String) (src path : String)
    (e : ε) (h : parseModule path src = Except.error e) :
    pretty parseModule renderModule writer src path
      = (writer, Except.error (FormatterError.Parse path src e)) := by
  unfold pretty
  rw [h]

/-- Claim C2 witness: a parser that always fails with a concrete inner
error leaves a concrete sink untouched and surfaces the error with the
path and source. -/
theorem c2_pretty_parse_error_witness :
    pretty (fun (_ _ : String) => (Except.error "inner" : Except String Unit))
      (fun _ => "") (["existing"]) ("src text") ("path.gleam")
      = (["existing"],
        Except.error (FormatterError.Parse ("path.gleam") ("src text") ("inner"))) :=
  c2_pretty_parse_error (fun _ _ => Except.error "inner") (fun _ => "")
    (["existing"]) ("src text") ("path.gleam") "inner" rfl

/-- The fields of a statement that Formatter::statements inspects: its
Statement::is_use and Statement::is_expression discriminants (the ast
module is an external collaborator) and the end of its span. -/
structure Stmt where
  isUse : Bool
  isExpression : Bool
  locEnd : Nat
deriving DecidableEq, Repr

/-- The loop of Formatter::statements: pop the empty lines following the
previous statement, choose the separator (blank line when one was
popped, single newline otherwise, nothing before the first), emit the
grouped statement, and after a use statement in last position emit a
hard newline and a todo document. The per-statement formatting is a
function argument since the claim is about the loop. -/
def statementsLoop (stmtF : Ctx → Stmt → Ctx × Document) :
    Bool → Ctx → Nat → List Stmt → Ctx × List Document
  | _, ctx, _, [] => (ctx, [])
  | first, ctx, prev, s :: rest =>
    let pe := popEmptyLines ctx (prev + 1)
    let sep : List Document :=
      if !first && pe.1 then [Document.line 2]
      else if !first then [Document.line 1]
      else []
    let fd := stmtF pe.2 s
    let ins : List Document :=
      if s.isUse && rest.isEmpty then [Document.line 1, Document.text ("todo")]
      else []
    let r := statementsLoop stmtF false fd.1 s.locEnd rest
    (r.1, sep ++ (fd.2.group :: ins) ++ r.2)

/-- Mirrors Formatter::statements: run the loop from position zero and
force-break the concatenation unless the body is a single expression
statement. -/
def statements (stmtF : Ctx → Stmt → Ctx × Document) (ctx : Ctx)
    (stmts : List Stmt) : Ctx × Document :=
  let r := statementsLoop stmtF true ctx 0 stmts
  (r.1,
    if stmts.length = 1 && ((stmts.head?.map Stmt.isExpression).getD false) then concatD r.2
    else (concatD r.2).forceBreak)

/-- The statements loop without the todo insertion: what the loop emits
for the statements themselves. -/
def statementsPlainLoop (stmtF : Ctx → Stmt → Ctx × Document) :
    Bool → Ctx → Nat → List Stmt → Ctx × List Document
  | _, ctx, _, [] => (ctx, [])
  | first, ctx, prev, s :: rest =>
    let pe := popEmptyLines ctx (prev + 1)
    let sep : List Document :=
      if !first && pe.1 then [Document.line 2]
      else if !first then [Document.line 1]
      else []
    let fd := stmtF pe.2 s
    let r := statementsPlainLoop stmtF false fd.1 s.locEnd rest
    (r.1, sep ++ (fd.2.group :: r.2))

/-- The statements loop is the plain loop with a single hard newline and
a todo document appended exactly when the last statement is a use. -/
theorem statementsLoop_eq_plain (stmtF : Ctx → Stmt → Ctx × Document) :
    ∀ (first : Bool) (ctx : Ctx) (prev : Nat) (stmts : List Stmt),
      statementsLoop stmtF first ctx prev stmts =
        ((statementsPlainLoop stmtF first ctx prev stmts).1,
          (statementsPlainLoop stmtF first ctx prev stmts).2 ++
            (if ((stmts.getLast?.map Stmt.isUse).getD false)
              then [Document.line 1, Document.text ("todo")] else [])) := by
  intro first ctx prev stmts
  induction stmts generalizing first ctx prev with
  | nil => simp [statementsLoop, statementsPlainLoop]
  | cons s rest ih =>
    cases rest with
    | nil =>
      simp only [statementsLoop, statementsPlainLoop, List.isEmpty_nil, Bool.and_true,
        List.getLast?_singleton, Option.map_some, Option.getD_some]
      cases hs : s.isUse <;> simp [hs]
    | cons s2 rest2 =>
      have hlast : (s :: s2 :: rest2).getLast? = (s2 :: rest2).getLast? := by
        simp [List.getLast?_cons_cons]
      have hne : (s2 :: rest2 : List Stmt).isEmpty = false := rfl
      generalize hgen : (s2 :: rest2 : List Stmt) = l at ih hlast hne ⊢
      simp only [statementsLoop, statementsPlainLoop]
      rw [ih, hlast, hne]
      simp

/-- Claim C9: when the last statement of a body is a use binding the
formatter appends, after the statements themselves, a hard single
newline followed by a todo document; bodies whose last statement is not
a use get no insertion. Formally, statements equals the plain statements
loop with the insertion appended exactly when the last statement is a
use, under the unchanged single-expression force-break rule. -/
theorem c9_statements_trailing_use (stmtF : Ctx → Stmt → Ctx × Document)
    (ctx : Ctx) (s : Stmt) (rest : List Stmt) :
    statements stmtF ctx (s :: rest) =
      ((statementsPlainLoop stmtF true ctx 0 (s :: rest)).1,
        let ds := (statementsPlainLoop stmtF true ctx 0 (s :: rest)).2 ++
          (if (((s :: rest).getLast?.map Stmt.isUse).getD false)
            then [Document.line 1, Document.text ("todo")] else [])
        if (s :: rest).length = 1 && (((s :: rest).head?.map Stmt.isExpression).getD false)
          then concatD ds
          else (concatD ds).forceBreak) := by
  unfold statements
  rw [statementsLoop_eq_plain]

/-- The indentation step, mirroring const INDENT. -/
def INDENT : Nat := 2

/-- Mirrors format::commented: comments printed with a trailing newline
above the grouped document, or the document alone when there are none. -/
def commented (doc : Document) (comments : List (Option String)) : Document :=
  match printed_comments comments true with
  | some c => c.append doc.group
  | none => doc

/-- The element loop of Formatter::list: pop the empty lines before each
element, format it as a comma separated item, and join with the comma
document, inserting a zero-nested comma and a hard newline when a blank
line preceded the element. -/
def listElemsLoop {ε : Type} (commaItemF : Ctx → ε → Nat → Ctx × Document)
    (locOf : ε → Span) (comma : Document) (listSize : Nat) :
    Ctx → Document → List ε → Ctx × Document
  | ctx, acc, [] => (ctx, acc)
  | ctx, acc, e :: rest =>
    let pe := popEmptyLines ctx (locOf e).start
    let fd := commaItemF pe.2 e listSize
    let acc' :=
      if acc.isEmpty then fd.2
      else if pe.1 then
        (acc.append (comma.setNesting 0)).append ((Document.line 1).append fd.2)
      else (acc.append comma).append fd.2
    listElemsLoop commaItemF locOf comma listSize fd.1 acc' rest

/-- Mirrors Formatter::list, lines 2003 to 2114. The recursive
collaborators are parameters: exprF for Formatter::expr, commaItemF for
Formatter::comma_separated_item, canMulti for the external
can_have_multiple_per_line predicate and locOf for HasLocation. A list
with no leading elements and a spread tail is the bare tail expression;
an empty list is a pair of brackets, absorbing any trailing comments;
otherwise the elements are joined by the packing-chosen comma, the tail
is appended after a double dot, trailing comments are pulled inside
before the closing bracket, and the whole is grouped or force-broken
according to the packing. -/
def list {ε : Type} (exprF : Ctx → ε → Ctx × Document)
    (commaItemF : Ctx → ε → Nat → Ctx × Document) (canMulti : ε → Bool)
    (locOf : ε → Span) (ctx : Ctx) (elements : List ε) (tail : Option ε)
    (location : Span) : Ctx × Document :=
  match elements with
  | [] =>
    (match tail with
      | some t => exprF ctx t
      | none =>
        let pc := popComments ctx location.stop
        match printed_comments pc.1 false with
        | none => (pc.2, Document.text ("[]"))
        | some comments =>
          (pc.2,
            (((((Document.text ("[")).append
                ((Document.break_ ("") ("")).nest INDENT)).append
              comments).append
              (Document.break_ ("") (""))).append
              (Document.text ("]"))).forceBreak))
  | _ :: _ =>
    let listPacking := items_sequence_packing ctx locOf canMulti elements tail location
    let comma : Document :=
      match listPacking with
      | ItemsPacking.FitMultiplePerLine => Document.flexBreak (",") (", ")
      | ItemsPacking.FitOnePerLine => Document.break_ (",") (", ")
      | ItemsPacking.BreakOnePerLine => Document.break_ (",") (", ")
    let listSize := elements.length + (match tail with | some _ => 1 | none => 0)
    let el := listElemsLoop commaItemF locOf comma listSize ctx Document.nil elements
    let elementsDoc := el.2.nextBreakFits NextBreakFitsMode.Disabled
    let doc := (Document.break_ ("[") ("[")).append elementsDoc
    let withTail :=
      match tail with
      | none => (el.1, doc.nest INDENT, Document.break_ (",") (""))
      | some t =>
        let pc := popComments el.1 (locOf t).start
        let ft := exprF pc.2 t
        let tailDoc := commented ((Document.text ("..")).append ft.2) pc.1
        (ft.1,
          ((doc.append (Document.break_ (",") (", "))).append tailDoc).nest INDENT,
          Document.break_ ("") (""))
    let pc2 := popComments withTail.1 location.stop
    let closed :=
      match printed_comments pc2.1 false with
      | none => (withTail.2.1.append withTail.2.2).append (Document.text ("]"))
      | some comment =>
        ((((withTail.2.1.append (withTail.2.2.nest INDENT)).append comment).append
          (Document.line 1)).append (Document.text ("]"))).forceBreak
    (pc2.2,
      match listPacking with
      | ItemsPacking.FitOnePerLine => closed.group
      | ItemsPacking.FitMultiplePerLine => closed.group
      | ItemsPacking.BreakOnePerLine => closed.forceBreak)

/-- Mirrors Formatter::list_pattern, lines 2346 to 2381. The pattern
formatter and the is_discard discriminant are parameters. A pattern with
no leading elements and a spread tail is the bare tail pattern; an empty
list pattern is a pair of brackets; otherwise the elements are joined by
soft comma breaks, a discard tail prints as a bare double dot, and the
whole is grouped. -/
def list_pattern {π : Type} (patternF : Ctx → π → Ctx × Document)
    (isDiscard : π → Bool) (locOf : π → Span) (ctx : Ctx)
    (elements : List π) (tail : Option π) : Ctx × Document :=
  match elements with
  | [] =>
    (match tail with
      | some t => patternF ctx t
      | none => (ctx, Document.text ("[]")))
  | _ :: _ =>
    let folded := elements.foldl
      (fun (acc : Ctx × List Document) e =>
        let fd := patternF acc.1 e
        (fd.1, acc.2 ++ [fd.2]))
      (ctx, [])
    let elementsDoc := joinD folded.2 (Document.break_ (",") (", "))
    let doc := (Document.break_ ("[") ("[")).append elementsDoc
    let withTail :=
      match tail with
      | none => (folded.1, (doc.nest INDENT).append (Document.break_ (",") ("")))
      | some t =>
        let pc := popComments folded.1 (locOf t).start
        let ft :=
          if isDiscard t then (pc.2, Document.text (".."))
          else
            let f := patternF pc.2 t
            (f.1, (Document.text ("..")).append f.2)
        let tailDoc := commented ft.2 pc.1
        (ft.1,
          (((doc.append (Document.break_ (",") (", "))).append tailDoc).nest INDENT).append
            (Document.break_ ("") ("")))
    (withTail.1, (withTail.2.append (Document.text ("]"))).group)

/-- Claim C10: a list expression or pattern with zero leading elements
and only a spread tail is rendered as the bare tail alone, with the
brackets and the double-dot spread marker dropped. -/
theorem c10_spread_only_list {ε π : Type} (exprF : Ctx → ε → Ctx × Document)
    (commaItemF : Ctx → ε → Nat → Ctx × Document) (canMulti : ε → Bool)
    (locOf : ε → Span) (ctx : Ctx) (t : ε) (location : Span)
    (patternF : Ctx → π → Ctx × Document) (isDiscard : π → Bool)
    (locOfP : π → Span) (ctx2 : Ctx) (p : π) :
    list exprF commaItemF canMulti locOf ctx [] (some t) location = exprF ctx t
    ∧ list_pattern patternF isDiscard locOfP ctx2 [] (some p) = patternF ctx2 p :=
  ⟨rfl, rfl⟩

/-- Where a function capture sits, mirroring enum FnCapturePosition. -/
inductive FnCapturePosition where
  | RightHandSideOfPipe
  | EverywhereElse
deriving DecidableEq, Repr

/-- A capture-call argument value. Modelled from the spec: a capture
hole is the placeholder underscore argument that converts a call into an
anonymous function (the ast helper is_capture_hole is an external
collaborator); every other expression is opaque here. -/
inductive CExpr where
  | hole
  | other (id : Nat)
deriving DecidableEq, Repr

/-- A call argument, mirroring CallArg with its optional label and its
value. -/
structure CCallArg where
  label : Option String
  value : CExpr
deriving DecidableEq, Repr

/-- Mirrors CallArg::is_capture_hole. -/
def CCallArg.is_capture_hole (a : CCallArg) : Bool :=
  a.value = CExpr.hole

/-- Mirrors the match of Formatter::fn_capture over the single call in
the capture body, lines 1601 to 1658 of format.rs. The recursive
collaborators are parameters: exprF stands for Formatter::expr on the
called function and wrapF for append_inlinable_wrapped_arguments on the
arguments actually printed. A single unlabelled hole argument in any
position prints the bare function; on the right-hand side of a pipe a
leading unlabelled hole before further arguments is elided; anything
else prints as the unchanged call. -/
def fn_capture (exprF : CExpr → Document)
    (wrapF : Document → List CCallArg → Document)
    (position : FnCapturePosition) (fn : CExpr)
    (arguments : List CCallArg) : Document :=
  match position, arguments with
  | _, [arg] =>
    if arg.is_capture_hole && arg.label.isNone then exprF fn
    else wrapF (exprF fn) arguments
  | FnCapturePosition.RightHandSideOfPipe, arg :: rest =>
    if arg.is_capture_hole && arg.label.isNone then wrapF (exprF fn) rest
    else wrapF (exprF fn) (arg :: rest)
  | _, arguments => wrapF (exprF fn) arguments

/-- The capture rendering exactly as claim C8 words it: on the
right-hand side of a pipe a capture whose first argument is an
unlabelled hole drops the hole (printing the bare name when it was the
only argument); anywhere else only a capture whose single argument is an
unlabelled hole simplifies to the bare name, and every other capture
prints as an unchanged call. -/
def claimCapture (exprF : CExpr → Document)
    (wrapF : Document → List CCallArg → Document)
    (position : FnCapturePosition) (fn : CExpr)
    (arguments : List CCallArg) : Document :=
  match position with
  | FnCapturePosition.RightHandSideOfPipe =>
    match arguments with
    | [a] =>
      if a.is_capture_hole && a.label.isNone then exprF fn
      else wrapF (exprF fn) arguments
    | a :: rest =>
      if a.is_capture_hole && a.label.isNone then wrapF (exprF fn) rest
      else wrapF (exprF fn) arguments
    | [] => wrapF (exprF fn) arguments
  | FnCapturePosition.EverywhereElse =>
    match arguments with
    | [a] =>
      if a.is_capture_hole && a.label.isNone then exprF fn
      else wrapF (exprF fn) arguments
    | _ => wrapF (exprF fn) arguments

/-- Claim C8: the capture simplification of the formatter agrees with
the claimed case analysis for every position, function and argument
list. -/
theorem c8_fn_capture (exprF : CExpr → Document)
    (wrapF : Document → List CCallArg → Document)
    (position : FnCapturePosition) (fn : CExpr)
    (arguments : List CCallArg) :
    fn_capture exprF wrapF position fn arguments
      = claimCapture exprF wrapF position fn arguments := by
  cases position <;> rcases arguments with _ | ⟨a, _ | ⟨b, rest⟩⟩ <;> rfl

/-- Mirrors ast::AssignName: an import alias is a variable name or a
discard name. -/
inductive AssignName where
  | Variable (name : String)
  | Discard (name : String)
deriving DecidableEq, Repr

/-- The written name of an alias, mirroring AssignName::name. -/
def AssignName.nameOf : AssignName → String
  | AssignName.Variable n => n
  | AssignName.Discard n => n

/-- An unqualified import item: its name, used for sorting, and its
rendered document (the Documentable instance of UnqualifiedImport lives
in the external ast module). -/
structure UnqItem where
  name : String
  doc : Document
deriving DecidableEq, Repr

/-- Stable insertion of an element after every element that compares at
or below it. -/
def insertBy {α : Type} (le : α → α → Bool) (a : α) : List α → List α
  | [] => [a]
  | b :: l => if le b a then b :: insertBy le a l else a :: b :: l

/-- Stable insertion sort, mirroring the stable sorted_by of the Rust
iterator adaptors. -/
def sortBy {α : Type} (le : α → α → Bool) (l : List α) : List α :=
  l.foldl (fun acc x => insertBy le x acc) []

/-- Structural lexicographic comparison of character lists, mirroring
the byte-wise EcoString ordering the Rust sort uses (code-point order
and UTF-8 byte order agree). -/
def lexLeChars : List Char → List Char → Bool
  | [], _ => true
  | _ :: _, [] => false
  | x :: xs, y :: ys => if x = y then lexLeChars xs ys else decide (x < y)

/-- Structural lexicographic comparison of strings. -/
def lexLe (a b : String) : Bool :=
  lexLeChars a.data b.data

/-- The structural comparison refutes exactly the lexicographic
ordering in the other direction. -/
theorem lexLeChars_iff :
    ∀ l1 l2 : List Char, lexLeChars l1 l2 = true ↔ ¬ List.Lex (· < ·) l2 l1 := by
  intro l1
  induction l1 with
  | nil =>
    intro l2
    simp only [lexLeChars]
    constructor
    · intro _ h
      exact List.Lex.not_nil_right _ _ h
    · intro _
      trivial
  | cons x xs ih =>
    intro l2
    cases l2 with
    | nil =>
      simp only [lexLeChars]
      constructor
      · intro h
        cases h
      · intro h
        exact absurd (List.Lex.nil) h
    | cons y ys =>
      simp only [lexLeChars]
      by_cases hxy : x = y
      · subst hxy
        rw [if_pos rfl, ih ys]
        constructor
        · intro h hc
          cases hc with
          | cons h2 => exact h h2
          | rel h2 => exact absurd h2 (lt_irrefl x)
        · intro h h2
          exact h (List.Lex.cons h2)
      · rw [if_neg hxy]
        constructor
        · intro h hc
          have hlt : x < y := by simpa using h
          cases hc with
          | cons h2 => exact hxy rfl
          | rel h2 => exact absurd (lt_trans h2 hlt) (lt_irrefl y)
        · intro h
          simp only [decide_eq_true_eq]
          rcases lt_trichotomy x y with h2 | h2 | h2
          · exact h2
          · exact absurd h2 hxy
          · exact absurd (List.Lex.rel h2) h

/-- The structural comparison is the string order of the library. -/
theorem lexLe_iff (a b : String) : lexLe a b = true ↔ a ≤ b := by
  rw [lexLe, lexLeChars_iff]
  rw [String.le_iff_toList_le]
  constructor
  · intro h
    by_contra hc
    exact h (not_le.mp hc)
  · intro h hc
    exact absurd h (not_le.mpr hc)

/-- Mirrors the last segment lookup
module.split(slash).next_back() of the import arm. -/
def lastSegment (m : String) : Option String :=
  (m.splitOn ("/")).getLast?

/-- Mirrors the unqualified part of the import arm, lines 394 to 415:
nothing when both item lists are empty, otherwise the items, types
first, each list sorted by name, joined by flex comma breaks inside
dot-brace delimiters. -/
def importSecondDoc (unqualifiedTypes unqualifiedValues : List UnqItem) : Document :=
  if unqualifiedValues.isEmpty && unqualifiedTypes.isEmpty then Document.nil
  else
    let types := (sortBy (fun a b => lexLe a.name b.name) unqualifiedTypes).map
      (fun t => (Document.text ("type ")).append t.doc)
    let values := (sortBy (fun a b => lexLe a.name b.name) unqualifiedValues).map
      (fun v => v.doc)
    let unq := joinD (types ++ values) (Document.flexBreak (",") (", "))
    let unq2 := ((((Document.break_ ("") ("")).append unq).nest INDENT).append
      (Document.break_ (",") (""))).group
    ((Document.text (".\x7b")).append unq2).append (Document.text ("\x7d"))

/-- An import definition as the formatter sees it: the start of its
span, its module path, its unqualified items and its optional alias. -/
structure ImportDef where
  start : Nat
  module : String
  unqualifiedTypes : List UnqItem
  unqualifiedValues : List UnqItem
  asName : Option AssignName
deriving DecidableEq, Repr

/-- Mirrors the Definition::Import arm of Formatter::definition, lines
387 to 436: the import keyword, the module path and the unqualified
part, followed by the alias clause unless the alias is a variable equal
to the default module-access name (the last path segment). -/
def importDefinitionDoc (imp : ImportDef) : Document :=
  let second := importSecondDoc imp.unqualifiedTypes imp.unqualifiedValues
  let doc := ((Document.text ("import ")).append (Document.text imp.module)).append second
  match lastSegment imp.module, imp.asName with
  | some moduleName, some (AssignName.Variable name) =>
    if moduleName = name then doc
    else (doc.append (Document.text (" as "))).append (Document.text name)
  | _, none => doc
  | _, some (AssignName.Variable name) =>
    (doc.append (Document.text (" as "))).append (Document.text name)
  | _, some (AssignName.Discard name) =>
    (doc.append (Document.text (" as "))).append (Document.text name)

/-- Is the alias the default module-access name? Per the claim this is
an alias equal to the last path segment; a discard alias never equals a
path segment lexically (it starts with an underscore), matching the code
which only elides variable aliases. -/
def aliasIsRedundant (m : String) (a : AssignName) : Bool :=
  match a with
  | AssignName.Variable n => decide (lastSegment m = some n)
  | AssignName.Discard _ => false

/-- Claim C7: an import whose alias is the default module-access name is
rendered exactly as the same import without any alias, the as clause
omitted entirely; any other variable or discard alias is rendered as an
as clause carrying the written name. -/
theorem c7_import_alias (start : Nat) (m : String) (uts uvs : List UnqItem)
    (a : AssignName) :
    importDefinitionDoc ⟨start, m, uts, uvs, some a⟩ =
      (if aliasIsRedundant m a then
        importDefinitionDoc ⟨start, m, uts, uvs, none⟩
      else
        ((importDefinitionDoc ⟨start, m, uts, uvs, none⟩).append
          (Document.text (" as "))).append (Document.text a.nameOf)) := by
  unfold importDefinitionDoc aliasIsRedundant
  cases a with
  | Variable n =>
    cases hseg : lastSegment m with
    | none => simp [hseg, AssignName.nameOf]
    | some mn =>
      by_cases heq : mn = n
      · subst heq
        simp [hseg, AssignName.nameOf]
      · simp only [hseg, if_neg heq, AssignName.nameOf]
        have : ¬ (some mn = some n) := by
          intro hc
          exact heq (by injection hc)
        simp [this]
  | Discard n =>
    cases hseg : lastSegment m with
    | none => simp [hseg, AssignName.nameOf]
    | some mn => simp [hseg, AssignName.nameOf]

/-- Membership in a stable insertion. -/
theorem insertBy_mem {α : Type} (le : α → α → Bool) (a : α) :
    ∀ (l : List α) (x : α), x ∈ insertBy le a l → x = a ∨ x ∈ l := by
  intro l
  induction l with
  | nil => intro x hx; simp [insertBy] at hx; simp [hx]
  | cons b rest ih =>
    intro x hx
    simp only [insertBy] at hx
    by_cases hb : le b a = true
    · rw [if_pos hb] at hx
      rcases List.mem_cons.mp hx with rfl | hx2
      · right; simp
      · rcases ih x hx2 with h | h
        · left; exact h
        · right; simp [h]
    · rw [if_neg hb] at hx
      rcases List.mem_cons.mp hx with rfl | hx2
      · left; rfl
      · right; exact hx2

/-- Stable insertion preserves pairwise order for a total transitive
comparison. -/
theorem insertBy_pairwise {α : Type} (le : α → α → Bool)
    (htot : ∀ a b, le a b = true ∨ le b a = true)
    (htrans : ∀ a b c, le a b = true → le b c = true → le a c = true) (a : α) :
    ∀ (l : List α), List.Pairwise (fun x y => le x y = true) l →
      List.Pairwise (fun x y => le x y = true) (insertBy le a l) := by
  intro l
  induction l with
  | nil => intro _; simp [insertBy]
  | cons b rest ih =>
    intro hp
    rcases List.pairwise_cons.mp hp with ⟨hb, hrest⟩
    simp only [insertBy]
    by_cases hba : le b a = true
    · rw [if_pos hba]
      refine List.pairwise_cons.mpr ⟨?_, ih hrest⟩
      intro x hx
      rcases insertBy_mem le a rest x hx with rfl | hxr
      · exact hba
      · exact hb x hxr
    · rw [if_neg hba]
      have hab : le a b = true := by
        rcases htot a b with h | h
        · exact h
        · exact absurd h hba
      refine List.pairwise_cons.mpr ⟨?_, hp⟩
      intro x hx
      rcases List.mem_cons.mp hx with rfl | hxr
      · exact hab
      · exact htrans a b x hab (hb x hxr)

/-- Stable insertion sort is pairwise ordered for a total transitive
comparison. -/
theorem sortBy_pairwise {α : Type} (le : α → α → Bool)
    (htot : ∀ a b, le a b = true ∨ le b a = true)
    (htrans : ∀ a b c, le a b = true → le b c = true → le a c = true)
    (l : List α) :
    List.Pairwise (fun x y => le x y = true) (sortBy le l) := by
  have general : ∀ (l2 : List α) (acc : List α),
      List.Pairwise (fun x y => le x y = true) acc →
      List.Pairwise (fun x y => le x y = true)
        (l2.foldl (fun acc x => insertBy le x acc) acc) := by
    intro l2
    induction l2 with
    | nil => intro acc h; simpa using h
    | cons x rest ih =>
      intro acc h
      exact ih (insertBy le x acc) (insertBy_pairwise le htot htrans x acc h)
  exact general l [] (by simp)

/-- Mirrors Formatter::sorted_import_group, lines 344 to 362: sort the
group stably by module path, format each import in that order through
targeted_definition (here the renderTD parameter, which also performs
the state pops of the comment cursor) and join by single newlines. The
sorted emission order is returned alongside the document so the ordering
property can be stated. -/
def sorted_import_group (renderTD : Ctx → ImportDef → Ctx × Document)
    (ctx : Ctx) (imports : List ImportDef) : Ctx × Document × List ImportDef :=
  let sorted := sortBy (fun a b => lexLe a.module b.module) imports
  let folded := sorted.foldl
    (fun (acc : Ctx × List Document) imp =>
      let r := renderTD acc.1 imp
      (r.1, acc.2 ++ [r.2]))
    (ctx, [])
  (folded.1, joinD folded.2 (Document.line 1), sorted)

/-- The loop of Formatter::imports, lines 292 to 340: a new
author-delimited group begins at an import preceded by a pending comment
or blank line; the previous group is then flushed (sorted, with its
delimiter above it), the delimiting comments and blank lines are
consumed, and the survey continues. The final group is flushed at the
end. Each emitted group carries its delimiter document and its emission
order. -/
def importsLoop (renderTD : Ctx → ImportDef → Ctx × Document) :
    Ctx → Document → List ImportDef → List ImportDef →
      Ctx × List (Document × List ImportDef)
  | ctx, delim, cur, [] =>
    (match cur with
      | [] => (ctx, [])
      | _ =>
        let g := sorted_import_group renderTD ctx cur
        (g.1, [(delim.append g.2.1, g.2.2)]))
  | ctx, delim, cur, imp :: rest =>
    if anyComments ctx imp.start || anyEmptyLines ctx imp.start then
      let flush :=
        match cur with
        | [] => (ctx, ([] : List (Document × List ImportDef)))
        | _ =>
          let g := sorted_import_group renderTD ctx cur
          (g.1, [(delim.append g.2.1, g.2.2)])
      let pc := popComments flush.1 imp.start
      let pe := popEmptyLines pc.2 imp.start
      let newDelim := (printed_comments pc.1 true).getD Document.nil
      let r := importsLoop renderTD pe.2 newDelim [imp] rest
      (r.1, flush.2 ++ r.2)
    else
      importsLoop renderTD ctx delim (cur ++ [imp]) rest

/-- Mirrors Formatter::imports: run the grouping loop with no pending
group and a nil delimiter. -/
def imports (renderTD : Ctx → ImportDef → Ctx × Document) (ctx : Ctx)
    (imps : List ImportDef) : Ctx × List (Document × List ImportDef) :=
  importsLoop renderTD ctx Document.nil [] imps

/-- Every group the loop emits is a stably sorted group. -/
theorem importsLoop_groups_sorted (renderTD : Ctx → ImportDef → Ctx × Document) :
    ∀ (l : List ImportDef) (ctx : Ctx) (delim : Document) (cur : List ImportDef),
      ∀ g ∈ (importsLoop renderTD ctx delim cur l).2,
        List.Pairwise (fun a b => lexLe a.module b.module = true) g.2 := by
  intro l
  induction l with
  | nil =>
    intro ctx delim cur g hg
    cases cur with
    | nil => simp [importsLoop] at hg
    | cons c rest =>
      simp only [importsLoop, List.mem_singleton] at hg
      subst hg
      exact sortBy_pairwise _ (fun a b => by
          rcases le_total a.module b.module with h | h
          · left; exact (lexLe_iff _ _).mpr h
          · right; exact (lexLe_iff _ _).mpr h)
        (fun a b c hab hbc => by
          exact (lexLe_iff _ _).mpr
            (le_trans ((lexLe_iff _ _).mp hab) ((lexLe_iff _ _).mp hbc))) (c :: rest)
  | cons imp rest ih =>
    intro ctx delim cur g hg
    simp only [importsLoop] at hg
    by_cases hnew : (anyComments ctx imp.start || anyEmptyLines ctx imp.start) = true
    · rw [if_pos hnew] at hg
      simp only [List.mem_append] at hg
      rcases hg with hflush | hrec
      · cases cur with
        | nil => simp at hflush
        | cons c crest =>
          simp only [List.mem_singleton] at hflush
          subst hflush
          exact sortBy_pairwise _ (fun a b => by
              rcases le_total a.module b.module with h | h
              · left; exact (lexLe_iff _ _).mpr h
              · right; exact (lexLe_iff _ _).mpr h)
            (fun a b c hab hbc => by
              exact (lexLe_iff _ _).mpr
                (le_trans ((lexLe_iff _ _).mp hab) ((lexLe_iff _ _).mp hbc))) (c :: crest)
      · exact ih _ _ _ g hrec
    · rw [if_neg hnew] at hg
      exact ih _ _ _ g hg

/-- Claim C6: within each author-delimited import group emitted by the
grouping loop, the imports are rendered sorted by module path: every
earlier import in a group compares at or below every later one under
the lexicographic string order. -/
theorem c6_import_groups_sorted (renderTD : Ctx → ImportDef → Ctx × Document)
    (ctx : Ctx) (imps : List ImportDef) (g : Document × List ImportDef)
    (hg : g ∈ (imports renderTD ctx imps).2) :
    List.Pairwise (fun a b => a.module ≤ b.module) g.2 := by
  have := importsLoop_groups_sorted renderTD imps ctx Document.nil [] g hg
  exact this.imp (fun h => (lexLe_iff _ _).mp h)

/-- Claim C6 witness: two imports written out of order with no
delimiter between them form a single group emitted in sorted order. -/
theorem c6_import_groups_sorted_witness :
    List.Pairwise (fun (a : ImportDef) (b : ImportDef) => a.module ≤ b.module)
      [⟨20, "gleam/int", [], [], none⟩, ⟨0, "gleam/string", [], [], none⟩] :=
  c6_import_groups_sorted (fun c _ => (c, Document.nil)) ⟨[], [], [], [], [], []⟩
    [⟨0, "gleam/string", [], [], none⟩, ⟨20, "gleam/int", [], [], none⟩]
    (Document.nil.append (Document.nil.append ((Document.line 1).append
        (Document.nil.append Document.nil))),
      [⟨20, "gleam/int", [], [], none⟩, ⟨0, "gleam/string", [], [], none⟩])
    (by decide)

end Format
